import Mathlib

/-!
Verification of the manroland CSV parser core (row classification,
dictionary-driven field normalization, legacy tone-value reconciliation,
secondary-color expansion and the stream driver).

The JavaScript source is shallowly embedded: JS runtime values become the
inductive type JSValue, JS objects become insertion-ordered association
lists with JS property-assignment semantics, and code that can throw
(normalizeDataRow on a non-lowercasable color cell, normalizeMeta on a
paperType value with no digit) returns Option, where none models a thrown
TypeError. JS numbers are modelled as rationals; NaN and Infinity never
arise here because every cell delivered by the CSV tokenizer is a string
or null, and the is-number guard rejects the strings that would coerce to
NaN or Infinity.
-/

/-- A JavaScript runtime value as it occurs in this program. -/
inductive JSValue where
  | undefined
  | null
  | bool (b : Bool)
  | num (q : Rat)
  | str (s : String)
  deriving Repr, DecidableEq

/-- A JS object: insertion-ordered list of (property name, value) pairs. -/
abbrev Obj := List (String × JSValue)

/-- A raw CSV row as delivered by the tokenizer (cells are strings or null). -/
abbrev Row := List JSValue

/-- JS property read: value of the first entry with the given key,
undefined when absent. -/
def objGet : Obj → String → JSValue
  | [], _ => JSValue.undefined
  | p :: rest, k => if p.1 = k then p.2 else objGet rest k

/-- JS property-presence test. -/
def objHasKey : Obj → String → Bool
  | [], _ => false
  | p :: rest, k => p.1 = k || objHasKey rest k

/-- JS property assignment: an existing key keeps its position and gets the
new value; a new key is appended at the end (insertion order). -/
def objSet : Obj → String → JSValue → Obj
  | [], k, v => [(k, v)]
  | p :: rest, k, v => if p.1 = k then (k, v) :: rest else p :: objSet rest k v

/-- JS delete: removes the entry with the given key. -/
def objDel : Obj → String → Obj
  | [], _ => []
  | p :: rest, k => if p.1 = k then objDel rest k else p :: objDel rest k

/-- Object.assign(target, src): copy the entries of src into target in order. -/
def objAssign (target : Obj) (src : Obj) : Obj :=
  src.foldl (fun acc p => objSet acc p.1 p.2) target

/-- Array indexing as in JS: out-of-range reads give undefined. -/
def rowGet (row : Row) (i : Nat) : JSValue :=
  row.getD i JSValue.undefined

/-- JS ToPropertyKey coercion used by computed member assignment.
Non-integer numeric keys never occur in this program (tokenized cells are
strings or null), so the rational fallback rendering is never reached. -/
def jsPropKey : JSValue → String
  | JSValue.undefined => "undefined"
  | JSValue.null => "null"
  | JSValue.bool b => if b then "true" else "false"
  | JSValue.num q => if q.den = 1 then toString q.num else toString q.num ++ "/" ++ toString q.den
  | JSValue.str s => s

/-- Longest digit prefix of a character list together with the remainder. -/
def takeDigits (l : List Char) : List Char × List Char :=
  (l.takeWhile Char.isDigit, l.dropWhile Char.isDigit)

/-- Decimal value of a digit list. -/
def digitsToNat (l : List Char) : Nat :=
  l.foldl (fun n c => 10 * n + (c.toNat - 48)) 0

/-- Modelled from the spec: the external is-number dependency (design note
in section 9) accepts a non-empty string matching a signed integer or
decimal literal with an optional exponent part (e or E); Infinity
and anything else is non-numeric. Returns the coerced numeric value. -/
def jsStrToNumber (s : String) : Option Rat :=
  let p1 : Int × List Char :=
    match s.data with
    | '+' :: rest => (1, rest)
    | '-' :: rest => (-1, rest)
    | l => (1, l)
  let ipr := takeDigits p1.2
  let fpr : List Char × List Char :=
    match ipr.2 with
    | '.' :: rest => takeDigits rest
    | _ => ([], ipr.2)
  if ipr.1.isEmpty && fpr.1.isEmpty then none
  else
    let mantNum : Int :=
      p1.1 * ((digitsToNat ipr.1 : Int) * (10 : Int) ^ fpr.1.length + (digitsToNat fpr.1 : Int))
    let mantDen : Nat := 10 ^ fpr.1.length
    match fpr.2 with
    | [] => some (mkRat mantNum mantDen)
    | e :: r1 =>
      if e = 'e' || e = 'E' then
        let p2 : Bool × List Char :=
          match r1 with
          | '+' :: rest => (false, rest)
          | '-' :: rest => (true, rest)
          | l => (false, l)
        let edr := takeDigits p2.2
        if edr.1.isEmpty || !edr.2.isEmpty then none
        else if p2.1 then some (mkRat mantNum (mantDen * (10 : Nat) ^ digitsToNat edr.1))
        else some (mkRat (mantNum * (10 : Int) ^ digitsToNat edr.1) mantDen)
      else none

/-- isNumber(value): true for actual numbers and for number-like strings. -/
def isNumber : JSValue → Bool
  | JSValue.num _ => true
  | JSValue.str s => !s.isEmpty && (jsStrToNumber s).isSome
  | _ => false

/-- Unary plus coercion, only applied to values passing isNumber. -/
def toNumberV : JSValue → Rat
  | JSValue.num q => q
  | JSValue.str s => (jsStrToNumber s).getD 0
  | _ => 0

/-- tryNumber(value): coerce number-like values, pass everything else through. -/
def tryNumber (value : JSValue) : JSValue :=
  if isNumber value then JSValue.num (toNumberV value) else value

/-- JS truthiness of the values occurring here. -/
def truthy : JSValue → Bool
  | JSValue.undefined => false
  | JSValue.null => false
  | JSValue.bool b => b
  | JSValue.num q => q != 0
  | JSValue.str s => !s.isEmpty

/-- String lowercasing, character by character (the color codes and names
in these files are ASCII). -/
def jsLower (s : String) : String :=
  String.mk (s.data.map Char.toLower)

/-- value.toLowerCase(): defined on strings only; calling it on null,
undefined, a boolean (or a non-number reaching this branch) throws a
TypeError, modelled as none. -/
def jsToLowerCase : JSValue → Option String
  | JSValue.str s => some (jsLower s)
  | _ => none

/-- A meta/data dictionary section: logical field name paired with the
manroland source-column name. -/
abbrev MetaDict := List (String × String)

/-- Logical key list of a dictionary section (Object.keys). -/
def dictKeys (d : MetaDict) : List String :=
  d.map Prod.fst

/-- Source-column lookup for a logical key (dict[key].manroland). -/
def dictLookup : MetaDict → String → String
  | [], _ => ""
  | p :: rest, k => if p.1 = k then p.2 else dictLookup rest k

/-- The three source-column names of one secondary-color dictionary entry. -/
structure SecCols where
  act_L : String
  act_a : String
  act_b : String
  deriving Repr, DecidableEq

/-- The secondary dictionary section: derived color code to column triple. -/
abbrev SecDict := List (String × SecCols)

/-- Entry lookup in the secondary section. -/
def secLookup : SecDict → String → SecCols
  | [], _ => ⟨"", "", ""⟩
  | p :: rest, k => if p.1 = k then p.2 else secLookup rest k

/-- The key-projection loop of normalizeMeta: for every logical key of the
dictionary assign the raw value found under its source column. -/
def projectKeys (input : Obj) (dict : MetaDict) : Obj :=
  (dictKeys dict).foldl (fun o key => objSet o key (objGet input (dictLookup dict key))) []

/-- First digit of the string, together with a directly following F or f
when present: the first match of the pattern digit[F] (case-insensitive).
none when the string contains no digit (in JS, match returns null and the
subsequent index access throws). -/
def digitFScan : List Char → Option (List Char)
  | [] => none
  | c :: rest =>
    if c.isDigit then
      match rest with
      | f :: _ => if f = 'F' ∨ f = 'f' then some [c, f] else some [c]
      | [] => some [c]
    else digitFScan rest

/-- Drop the first hyphen of the string (JS replace with a string pattern
replaces only the first occurrence). -/
def replaceFirstDash : List Char → List Char
  | [] => []
  | c :: rest => if c = '-' then rest else c :: replaceFirstDash rest

/-- The sheet post-processing: output.sheet.replace(hyphen, empty).trim(). -/
def jsSheet (s : String) : String :=
  (String.mk (replaceFirstDash s.data)).trim

/-- The sheet branch of normalizeMeta. -/
def sheetFix (o : Obj) : Obj :=
  match objGet o "sheet" with
  | JSValue.str s => objSet o "sheet" (JSValue.str (jsSheet s))
  | _ => o

/-- normalizeMeta(input, dict): project the dictionary keys, then reduce a
string paperType to its first digit[F] match (throwing, i.e. none, when the
pattern is absent), then normalize a string sheet value. -/
def normalizeMeta (input : Obj) (dict : MetaDict) : Option Obj :=
  let output := projectKeys input dict
  match objGet output "paperType" with
  | JSValue.str s =>
    match digitFScan s.data with
    | some m => some (sheetFix (objSet output "paperType" (JSValue.str (String.mk m))))
    | none => none
  | _ => some (sheetFix output)

/-- The reduce loop of normalizeDataRow over the remaining logical keys.
A color value that is neither number-like nor a string throws (none). -/
def normRowGo (row : Obj) (dict : MetaDict) : Obj → List String → Option Obj
  | obj, [] => some obj
  | obj, key :: ks =>
    let value := objGet row (dictLookup dict key)
    if isNumber value then
      normRowGo row dict (objSet obj key (JSValue.num (toNumberV value))) ks
    else if key = "color" then
      match jsToLowerCase value with
      | some s => normRowGo row dict (objSet obj key (JSValue.str s)) ks
      | none => none
    else
      normRowGo row dict (objSet obj key value) ks

/-- normalizeDataRow(row, dict): dictionary projection with numeric
coercion and color lower-casing. -/
def normalizeDataRow (row : Obj) (dict : MetaDict) : Option Obj :=
  normRowGo row dict [] (dictKeys dict)

/-- correctOldTonval(row): rows that already carry a defined tonVal40 pass
through unchanged; otherwise the row is rebuilt with tonVal40 taking the
tonVal50 value and the tonVal50/tonVal20 keys removed. -/
def correctOldTonval (row : Obj) : Obj :=
  if objGet row "tonVal40" ≠ JSValue.undefined then row
  else
    objDel (objDel (objSet (objAssign [] row) "tonVal40" (objGet row "tonVal50")) "tonVal50") "tonVal20"

/-- normalizeSecondaryColorRow(row, dict): one candidate record per derived
color of the secondary section, keeping only candidates whose three act
values are truthy. -/
def normalizeSecondaryColorRow (row : Obj) (dict : SecDict) : List Obj :=
  ((dict.map Prod.fst).map (fun color =>
    [("colorName", JSValue.str color),
     ("color", JSValue.str (jsLower color)),
     ("act_L", tryNumber (objGet row (secLookup dict color).act_L)),
     ("act_a", tryNumber (objGet row (secLookup dict color).act_a)),
     ("act_b", tryNumber (objGet row (secLookup dict color).act_b))])).filter
    (fun r => truthy (objGet r "act_L") && truthy (objGet r "act_a") && truthy (objGet r "act_b"))

/-- enhanceSecondaryColorRow: copy pUnitNo, measuringNo and zoneNo from the
sibling primary normalized row into the candidate. -/
def enhanceSecondaryColorRow (secondaryColorRow : Obj) (normalizedRow : Obj) : Obj :=
  objAssign (objAssign [] secondaryColorRow)
    [("pUnitNo", objGet normalizedRow "pUnitNo"),
     ("measuringNo", objGet normalizedRow "measuringNo"),
     ("zoneNo", objGet normalizedRow "zoneNo")]

/-- Does the 4-character pattern R digit digit digit (case-insensitive R)
match at the head of the character list. -/
def matchesAt (l : List Char) : Bool :=
  match l with
  | c :: d1 :: d2 :: d3 :: _ =>
    (c == 'R' || c == 'r') && d1.isDigit && d2.isDigit && d3.isDigit
  | _ => false

/-- Leftmost match of the machine-name pattern: try the pattern at each
position from the left, returning the matched 4 characters verbatim. -/
def machineScan : List Char → Option (List Char)
  | [] => none
  | c :: rest =>
    if matchesAt (c :: rest) then some ((c :: rest).take 4) else machineScan rest

/-- getMachineName(filename): empty for a missing or empty filename or
when the pattern does not occur; otherwise the first matched substring. -/
def getMachineName (filename : Option String) : String :=
  match filename with
  | none => ""
  | some s =>
    if s.isEmpty then ""
    else
      match machineScan s.data with
      | some m => String.mk m
      | none => ""

/-- skip(row): drop raster-percent marker rows and GB marker rows. -/
def skip (row : Row) : Bool :=
  rowGet row 0 == JSValue.str "Raster-Percent :" || rowGet row 1 == JSValue.str "GB"

/-- isHeaderRow(row): the row introducing the column headers. -/
def isHeaderRow (row : Row) : Bool :=
  rowGet row 0 == JSValue.str "Protocolled Measuring No"

/-- isSecondaryColorRow(row): second cell is the exact marker T. -/
def isSecondaryColorRow (row : Row) : Bool :=
  rowGet row 1 == JSValue.str "T"

/-- The local environment of the mapToHeaders reduce loop: the object under
construction plus the two input arrays, made explicit so that the absence
of mutation of the inputs is expressible. -/
structure MapEnv where
  obj : Obj
  row : List JSValue
  headers : List JSValue
  deriving Repr, DecidableEq

/-- The reduce loop of mapToHeaders: obj[headers[i]] = value for each value
of the row in order. Only the obj component is ever written. -/
def mapToHeadersLoop : MapEnv → Nat → List JSValue → MapEnv
  | e, _, [] => e
  | e, i, v :: pending =>
    mapToHeadersLoop ⟨objSet e.obj (jsPropKey (rowGet e.headers i)) v, e.row, e.headers⟩ (i + 1) pending

/-- mapToHeaders(row, headers): zip the positional row against the header
names by index into a fresh object. -/
def mapToHeaders (row : List JSValue) (headers : List JSValue) : Obj :=
  (mapToHeadersLoop ⟨[], row, headers⟩ 0 row).obj

/-- The full import dictionary: meta, data and secondary sections. -/
structure Dictionary where
  meta : MetaDict
  data : MetaDict
  secondary : SecDict
  deriving Repr, DecidableEq

/-- The transient state of the stream driver. -/
structure ParseState where
  meta : Obj
  values : List Obj
  headers : List JSValue
  isData : Bool
  deriving Repr, DecidableEq

/-- Driver state before the first row. -/
def initialState : ParseState :=
  ⟨[], [], [], false⟩

/-- The per-row handler of the stream driver. none models a thrown
exception (a data row whose color cell is not lowercasable). -/
def onData (dict : Dictionary) (st : ParseState) (row : Row) : Option ParseState :=
  if skip row then some st
  else if st.isData then
    match normalizeDataRow (mapToHeaders row st.headers) dict.data with
    | none => none
    | some nd =>
      let normalized := correctOldTonval nd
      if isSecondaryColorRow row then
        let expanded :=
          (normalizeSecondaryColorRow (mapToHeaders row st.headers) dict.secondary).map
            (fun s => enhanceSecondaryColorRow s normalized)
        some { st with values := st.values ++ expanded }
      else
        some { st with values := st.values ++ [normalized] }
  else if isHeaderRow row then
    some { st with headers := st.headers ++ row, isData := true }
  else
    some { st with meta := objSet st.meta (jsPropKey (rowGet row 0)) (rowGet row 1) }

/-- Feed the tokenized rows to the driver in order. -/
def runRows (dict : Dictionary) : ParseState → List Row → Option ParseState
  | st, [] => some st
  | st, row :: rest =>
    match onData dict st row with
    | none => none
    | some st2 => runRows dict st2 rest

/-- The delivered parse result. -/
structure ParseResult where
  meta : Obj
  values : List Obj
  deriving Repr, DecidableEq

/-- parser(file, cb) at stream end: InvalidInput when no values were
accumulated, otherwise the normalized metadata merged over the injected
maker and machine fields together with the accumulated values. The outer
none models a parse that threw instead of completing. -/
def parser (dict : Dictionary) (filename : Option String) (rows : List Row) :
    Option (Except String ParseResult) :=
  match runRows dict initialState rows with
  | none => none
  | some st =>
    if st.values = [] then some (Except.error "InvalidInput")
    else
      match normalizeMeta st.meta dict.meta with
      | none => none
      | some nm =>
        some (Except.ok
          ⟨objAssign
            [("maker", JSValue.str "manroland"),
             ("machine", JSValue.str (getMachineName filename))] nm,
           st.values⟩)

/-! Basic lemmas about the JS object primitives. -/

theorem objGet_set_self (o : Obj) (k : String) (v : JSValue) :
    objGet (objSet o k v) k = v := by
  induction o with
  | nil => simp [objSet, objGet]
  | cons p rest ih =>
    by_cases h : p.1 = k
    · simp [objSet, h, objGet]
    · simp [objSet, h, objGet, ih]

theorem objGet_set_other (o : Obj) {k k' : String} (hne : k' ≠ k) (v : JSValue) :
    objGet (objSet o k v) k' = objGet o k' := by
  induction o with
  | nil => simp [objSet, objGet, Ne.symm hne]
  | cons p rest ih =>
    by_cases h : p.1 = k
    · subst h
      simp [objSet, objGet, Ne.symm hne]
    · by_cases h2 : p.1 = k'
      · simp [objSet, h, objGet, h2, hne]
      · simp [objSet, h, objGet, h2, ih]

theorem objHasKey_set_self (o : Obj) (k : String) (v : JSValue) :
    objHasKey (objSet o k v) k = true := by
  induction o with
  | nil => simp [objSet, objHasKey]
  | cons p rest ih =>
    by_cases h : p.1 = k
    · simp [objSet, h, objHasKey]
    · simp [objSet, h, objHasKey, ih]

theorem objHasKey_set_other (o : Obj) {k k' : String} (hne : k' ≠ k) (v : JSValue) :
    objHasKey (objSet o k v) k' = objHasKey o k' := by
  induction o with
  | nil => simp [objSet, objHasKey, Ne.symm hne]
  | cons p rest ih =>
    by_cases h : p.1 = k
    · subst h
      simp [objSet, objHasKey, Ne.symm hne]
    · simp [objSet, h, objHasKey, ih]

theorem objGet_del_self (o : Obj) (k : String) :
    objGet (objDel o k) k = JSValue.undefined := by
  induction o with
  | nil => simp [objDel, objGet]
  | cons p rest ih =>
    by_cases h : p.1 = k
    · simp [objDel, h, ih]
    · simp [objDel, h, objGet, ih]

theorem objGet_del_other (o : Obj) {k k' : String} (hne : k' ≠ k) :
    objGet (objDel o k) k' = objGet o k' := by
  induction o with
  | nil => simp [objDel]
  | cons p rest ih =>
    by_cases h : p.1 = k
    · subst h
      simp [objDel, objGet, Ne.symm hne, ih]
    · simp [objDel, h, objGet, ih]

theorem objHasKey_del_self (o : Obj) (k : String) :
    objHasKey (objDel o k) k = false := by
  induction o with
  | nil => simp [objDel, objHasKey]
  | cons p rest ih =>
    by_cases h : p.1 = k
    · simp [objDel, h, ih]
    · simp [objDel, h, objHasKey, ih]

theorem objHasKey_del_other (o : Obj) {k k' : String} (hne : k' ≠ k) :
    objHasKey (objDel o k) k' = objHasKey o k' := by
  induction o with
  | nil => simp [objDel]
  | cons p rest ih =>
    by_cases h : p.1 = k
    · subst h
      simp [objDel, objHasKey, Ne.symm hne, ih]
    · simp [objDel, h, objHasKey, ih]

theorem objDel_of_not_hasKey (o : Obj) (k : String) (h : objHasKey o k = false) :
    objDel o k = o := by
  induction o with
  | nil => simp [objDel]
  | cons p rest ih =>
    simp [objHasKey] at h
    simp [objDel, h.1, ih h.2]

theorem objSet_of_get (o : Obj) (k : String) (v : JSValue)
    (hk : objHasKey o k = true) (hv : objGet o k = v) :
    objSet o k v = o := by
  induction o with
  | nil => simp [objHasKey] at hk
  | cons p rest ih =>
    obtain ⟨pk, pv⟩ := p
    by_cases h : pk = k
    · simp [objGet, h] at hv
      subst h
      simp [objSet, hv]
    · simp [objHasKey, h] at hk
      simp [objGet, h] at hv
      simp [objSet, h, ih hk hv]

theorem objGet_of_not_hasKey (o : Obj) (k : String) (h : objHasKey o k = false) :
    objGet o k = JSValue.undefined := by
  induction o with
  | nil => simp [objGet]
  | cons p rest ih =>
    simp [objHasKey] at h
    simp [objGet, h.1, ih h.2]

theorem objHasKey_iff_mem (o : Obj) (k : String) :
    objHasKey o k = true ↔ k ∈ o.map Prod.fst := by
  induction o with
  | nil => simp [objHasKey]
  | cons p rest ih =>
    by_cases h : p.1 = k
    · simp [objHasKey, h]
    · simp [objHasKey, h, ih, Ne.symm h]

theorem keys_set_of_hasKey (o : Obj) (k : String) (v : JSValue)
    (hk : objHasKey o k = true) :
    (objSet o k v).map Prod.fst = o.map Prod.fst := by
  induction o with
  | nil => simp [objHasKey] at hk
  | cons p rest ih =>
    by_cases h : p.1 = k
    · simp [objSet, h]
    · simp [objHasKey, h] at hk
      simp [objSet, h, ih hk]

theorem objSet_append_of_not_hasKey (o : Obj) (k : String) (v : JSValue)
    (h : objHasKey o k = false) :
    objSet o k v = o ++ [(k, v)] := by
  induction o with
  | nil => simp [objSet]
  | cons p rest ih =>
    simp [objHasKey] at h
    simp [objSet, h.1, ih h.2]

theorem keys_set_of_not_hasKey (o : Obj) (k : String) (v : JSValue)
    (h : objHasKey o k = false) :
    (objSet o k v).map Prod.fst = o.map Prod.fst ++ [k] := by
  rw [objSet_append_of_not_hasKey o k v h]
  simp

theorem objHasKey_append (o o' : Obj) (k : String) :
    objHasKey (o ++ o') k = (objHasKey o k || objHasKey o' k) := by
  induction o with
  | nil => simp [objHasKey]
  | cons p rest ih =>
    by_cases h : p.1 = k
    · simp [objHasKey, h]
    · simp [objHasKey, h, ih]

/-! Lemmas about Object.assign and the projection loops. -/

theorem objAssign_cons (target : Obj) (p : String × JSValue) (src : Obj) :
    objAssign target (p :: src) = objAssign (objSet target p.1 p.2) src := rfl

theorem objHasKey_assign (target src : Obj) (k : String) :
    objHasKey (objAssign target src) k = true ↔
      objHasKey target k = true ∨ k ∈ src.map Prod.fst := by
  induction src generalizing target with
  | nil => simp [objAssign]
  | cons p rest ih =>
    rw [objAssign_cons, ih]
    by_cases h : k = p.1
    · subst h
      simp [objHasKey_set_self]
    · simp [objHasKey_set_other _ h, h]

theorem objGet_assign_of_not_mem (target src : Obj) (k : String)
    (h : k ∉ src.map Prod.fst) :
    objGet (objAssign target src) k = objGet target k := by
  induction src generalizing target with
  | nil => rfl
  | cons p rest ih =>
    simp only [List.map_cons, List.mem_cons, not_or] at h
    rw [objAssign_cons, ih _ h.2, objGet_set_other _ h.1]

theorem objHasKey_of_get_ne (o : Obj) (k : String)
    (h : objGet o k ≠ JSValue.undefined) : objHasKey o k = true := by
  cases hk : objHasKey o k
  · exact absurd (objGet_of_not_hasKey o k hk) h
  · rfl

theorem objHasKey_set_of_hasKey (o : Obj) (k : String) (v : JSValue)
    (hk : objHasKey o k = true) (k2 : String) :
    objHasKey (objSet o k v) k2 = objHasKey o k2 := by
  by_cases h : k2 = k
  · subst h
    rw [objHasKey_set_self, hk]
  · exact objHasKey_set_other o h v

theorem nodup_keys_set (o : Obj) (k : String) (v : JSValue)
    (h : (o.map Prod.fst).Nodup) : ((objSet o k v).map Prod.fst).Nodup := by
  cases hk : objHasKey o k
  · rw [keys_set_of_not_hasKey o k v hk]
    have hmem : k ∉ o.map Prod.fst := by
      intro hm
      rw [(objHasKey_iff_mem o k).mpr hm] at hk
      exact absurd hk (by decide)
    simp [List.nodup_append, h, hmem]
  · rw [keys_set_of_hasKey o k v hk]
    exact h

theorem keys_del_sublist (o : Obj) (k : String) :
    ((objDel o k).map Prod.fst).Sublist (o.map Prod.fst) := by
  induction o with
  | nil => simp [objDel]
  | cons p rest ih =>
    by_cases h : p.1 = k
    · simp only [objDel, h, if_pos]
      exact ih.cons p.1
    · simp only [objDel, h, if_neg, not_false_iff, List.map_cons]
      exact ih.cons₂ p.1

theorem nodup_keys_del (o : Obj) (k : String)
    (h : (o.map Prod.fst).Nodup) : ((objDel o k).map Prod.fst).Nodup :=
  h.sublist (keys_del_sublist o k)

theorem nodup_keys_assign (target src : Obj)
    (h : (target.map Prod.fst).Nodup) :
    ((objAssign target src).map Prod.fst).Nodup := by
  induction src generalizing target with
  | nil => exact h
  | cons p rest ih =>
    rw [objAssign_cons]
    exact ih _ (nodup_keys_set target p.1 p.2 h)

theorem objAssign_append_of_disjoint (src : Obj) :
    ∀ target : Obj, (∀ k ∈ src.map Prod.fst, objHasKey target k = false) →
      (src.map Prod.fst).Nodup → objAssign target src = target ++ src := by
  induction src with
  | nil => intro target _ _; simp [objAssign]
  | cons p rest ih =>
    intro target hd hn
    simp only [List.map_cons, List.nodup_cons] at hn
    rw [objAssign_cons, objSet_append_of_not_hasKey _ _ _ (hd p.1 (by simp))]
    rw [ih (target ++ [(p.1, p.2)])]
    · simp
    · intro k hk
      rw [objHasKey_append]
      have h1 := hd k (by simp [hk])
      have h2 : p.1 ≠ k := fun he => hn.1 (he ▸ hk)
      simp [h1, objHasKey, h2]
    · exact hn.2

theorem objAssign_nil_of_nodup (src : Obj) (hn : (src.map Prod.fst).Nodup) :
    objAssign [] src = src := by
  rw [objAssign_append_of_disjoint src [] (fun k _ => rfl) hn]
  simp

theorem hasKey_foldl_set (ks : List String) (f : String → JSValue) :
    ∀ (o : Obj) (k : String),
      objHasKey (ks.foldl (fun acc key => objSet acc key (f key)) o) k = true ↔
        objHasKey o k = true ∨ k ∈ ks := by
  induction ks with
  | nil => intro o k; simp
  | cons key rest ih =>
    intro o k
    simp only [List.foldl_cons]
    rw [ih]
    by_cases h : k = key
    · subst h
      simp [objHasKey_set_self]
    · simp [objHasKey_set_other _ h, h]

theorem projectKeys_hasKey (input : Obj) (dict : MetaDict) (k : String) :
    objHasKey (projectKeys input dict) k = true ↔ k ∈ dictKeys dict := by
  have h := hasKey_foldl_set (dictKeys dict)
    (fun key => objGet input (dictLookup dict key)) [] k
  simpa [projectKeys, objHasKey] using h

theorem sheetFix_hasKey (o : Obj) (k : String) :
    objHasKey (sheetFix o) k = objHasKey o k := by
  unfold sheetFix
  split
  next s hs =>
    exact objHasKey_set_of_hasKey o "sheet" _
      (objHasKey_of_get_ne o "sheet" (by rw [hs]; simp)) k
  next => rfl

/-! Key-set lemmas for the two normalizers. -/

theorem normalizeMeta_hasKey (input : Obj) (dict : MetaDict) (r : Obj)
    (h : normalizeMeta input dict = some r) (k : String) :
    objHasKey r k = true ↔ k ∈ dictKeys dict := by
  simp only [normalizeMeta] at h
  split at h
  next s hp =>
    split at h
    next m hm =>
      cases h
      rw [sheetFix_hasKey, objHasKey_set_of_hasKey _ _ _
        (objHasKey_of_get_ne _ _ (by rw [hp]; simp))]
      exact projectKeys_hasKey input dict k
    next => cases h
  next =>
    cases h
    rw [sheetFix_hasKey]
    exact projectKeys_hasKey input dict k

theorem jsToLowerCase_some {v : JSValue} {s : String}
    (h : jsToLowerCase v = some s) : ∃ t, v = JSValue.str t := by
  cases v <;> simp_all [jsToLowerCase]

theorem normRowGo_hasKey (row : Obj) (dict : MetaDict) :
    ∀ (ks : List String) (obj r : Obj), normRowGo row dict obj ks = some r →
      ∀ k, (objHasKey r k = true ↔ objHasKey obj k = true ∨ k ∈ ks) := by
  intro ks
  induction ks with
  | nil =>
    intro obj r h k
    simp only [normRowGo, Option.some.injEq] at h
    subst h
    simp
  | cons key rest ih =>
    intro obj r h k
    simp only [normRowGo] at h
    by_cases h1 : isNumber (objGet row (dictLookup dict key)) = true
    · rw [if_pos h1] at h
      rw [ih _ _ h k]
      by_cases hk : k = key
      · subst hk
        simp [objHasKey_set_self]
      · simp [objHasKey_set_other _ hk, hk]
    · rw [if_neg h1] at h
      by_cases hc : key = "color"
      · rw [if_pos hc] at h
        cases hlc : jsToLowerCase (objGet row (dictLookup dict key)) with
        | none => rw [hlc] at h; cases h
        | some s =>
          rw [hlc] at h
          rw [ih _ _ h k]
          by_cases hk : k = key
          · subst hk
            simp [objHasKey_set_self]
          · simp [objHasKey_set_other _ hk, hk]
      · rw [if_neg hc] at h
        rw [ih _ _ h k]
        by_cases hk : k = key
        · subst hk
          simp [objHasKey_set_self]
        · simp [objHasKey_set_other _ hk, hk]

theorem normalizeDataRow_hasKey (row : Obj) (dict : MetaDict) (r : Obj)
    (h : normalizeDataRow row dict = some r) (k : String) :
    objHasKey r k = true ↔ k ∈ dictKeys dict := by
  have := normRowGo_hasKey row dict (dictKeys dict) [] r h k
  simpa [objHasKey] using this

theorem normRowGo_color_of_bad (row : Obj) (dict : MetaDict)
    (hbad1 : isNumber (objGet row (dictLookup dict "color")) = false)
    (hbad2 : jsToLowerCase (objGet row (dictLookup dict "color")) = none) :
    ∀ (ks : List String) (obj : Obj), "color" ∈ ks →
      normRowGo row dict obj ks = none := by
  intro ks
  induction ks with
  | nil => intro obj hmem; cases hmem
  | cons key rest ih =>
    intro obj hmem
    by_cases hk : key = "color"
    · subst hk
      simp only [normRowGo]
      rw [if_neg (by rw [hbad1]; exact Bool.false_ne_true)]
      simp [hbad2]
    · have hmem2 : "color" ∈ rest := by
        rcases List.mem_cons.mp hmem with he | hr
        · exact absurd he.symm hk
        · exact hr
      simp only [normRowGo]
      by_cases h1 : isNumber (objGet row (dictLookup dict key)) = true
      · rw [if_pos h1]
        exact ih _ hmem2
      · rw [if_neg h1, if_neg hk]
        exact ih _ hmem2

theorem normRowGo_color_success (row : Obj) (dict : MetaDict) :
    ∀ (ks : List String) (obj r : Obj), "color" ∈ ks →
      normRowGo row dict obj ks = some r →
      isNumber (objGet row (dictLookup dict "color")) = true ∨
        ∃ s, objGet row (dictLookup dict "color") = JSValue.str s := by
  intro ks
  induction ks with
  | nil => intro obj r hmem; cases hmem
  | cons key rest ih =>
    intro obj r hmem h
    simp only [normRowGo] at h
    by_cases h1 : isNumber (objGet row (dictLookup dict key)) = true
    · rw [if_pos h1] at h
      by_cases hk : key = "color"
      · subst hk
        exact Or.inl h1
      · have hmem2 : "color" ∈ rest := by
          rcases List.mem_cons.mp hmem with he | hr
          · exact absurd he.symm hk
          · exact hr
        exact ih _ _ hmem2 h
    · rw [if_neg h1] at h
      by_cases hk : key = "color"
      · subst hk
        rw [if_pos rfl] at h
        cases hlc : jsToLowerCase (objGet row (dictLookup dict "color")) with
        | none => rw [hlc] at h; cases h
        | some s => exact Or.inr (jsToLowerCase_some hlc)
      · rw [if_neg hk] at h
        have hmem2 : "color" ∈ rest := by
          rcases List.mem_cons.mp hmem with he | hr
          · exact absurd he.symm hk
          · exact hr
        exact ih _ _ hmem2 h

/-! Lemmas about the machine-name scan, the paperType scan and the
header-mapping loop. -/

theorem machineScan_eq_of_first (l : List Char) :
    ∀ i : Nat, matchesAt (l.drop i) = true →
      (∀ j, j < i → matchesAt (l.drop j) = false) →
      machineScan l = some ((l.drop i).take 4) := by
  induction l with
  | nil =>
    intro i hi _
    simp [matchesAt] at hi
  | cons c rest ih =>
    intro i hi hj
    cases i with
    | zero =>
      simp only [List.drop_zero] at hi ⊢
      simp [machineScan, hi]
    | succ i2 =>
      have h0 : matchesAt (c :: rest) = false := by
        have := hj 0 (Nat.succ_pos i2)
        simpa using this
      rw [List.drop_succ_cons] at hi
      simp only [machineScan, h0, Bool.false_eq_true, if_false]
      exact ih i2 hi (fun j hjlt => by
        have := hj (j + 1) (Nat.succ_lt_succ hjlt)
        rwa [List.drop_succ_cons] at this)

theorem machineScan_none_of_nomatch (l : List Char)
    (h : ∀ i, matchesAt (l.drop i) = false) : machineScan l = none := by
  induction l with
  | nil => rfl
  | cons c rest ih =>
    have h0 : matchesAt (c :: rest) = false := by simpa using h 0
    simp only [machineScan, h0, Bool.false_eq_true, if_false]
    exact ih (fun i => by
      have := h (i + 1)
      rwa [List.drop_succ_cons] at this)

theorem digitFScan_none_of_nodigit (l : List Char)
    (h : ∀ c ∈ l, c.isDigit = false) : digitFScan l = none := by
  induction l with
  | nil => rfl
  | cons c rest ih =>
    have h0 : c.isDigit = false := h c (by simp)
    simp only [digitFScan, h0, Bool.false_eq_true, if_false]
    exact ih (fun d hd => h d (by simp [hd]))

theorem digitFScan_some_shape (l : List Char) :
    ∀ m, digitFScan l = some m →
      ∃ i d tail, l.drop i = d :: tail ∧ d.isDigit = true ∧
        (∀ c ∈ l.take i, c.isDigit = false) ∧
        (m = [d] ∨ ∃ f t2, tail = f :: t2 ∧ (f = 'F' ∨ f = 'f') ∧ m = [d, f]) := by
  induction l with
  | nil => intro m h; cases h
  | cons c rest ih =>
    intro m h
    cases hd : c.isDigit with
    | true =>
      simp only [digitFScan, hd, if_true] at h
      cases rest with
      | nil =>
        cases h
        exact ⟨0, c, [], by simp, hd, by simp, Or.inl rfl⟩
      | cons f rrest =>
        have h2 : (if f = 'F' ∨ f = 'f' then some [c, f] else some [c]) = some m := h
        by_cases hf : f = 'F' ∨ f = 'f'
        · rw [if_pos hf] at h2
          cases h2
          exact ⟨0, c, f :: rrest, by simp, hd, by simp,
            Or.inr ⟨f, rrest, rfl, hf, rfl⟩⟩
        · rw [if_neg hf] at h2
          cases h2
          exact ⟨0, c, f :: rrest, by simp, hd, by simp, Or.inl rfl⟩
    | false =>
      simp only [digitFScan, hd, Bool.false_eq_true, if_false] at h
      obtain ⟨i, d, tail, hdrop, hdig, htake, hshape⟩ := ih m h
      refine ⟨i + 1, d, tail, by simpa using hdrop, hdig, ?_, hshape⟩
      intro c2 hc2
      rw [List.take_succ_cons] at hc2
      rcases List.mem_cons.mp hc2 with he | hr
      · exact he ▸ hd
      · exact htake c2 hr

theorem mapToHeadersLoop_frame (pending : List JSValue) :
    ∀ (e : MapEnv) (i : Nat),
      (mapToHeadersLoop e i pending).row = e.row ∧
      (mapToHeadersLoop e i pending).headers = e.headers := by
  induction pending with
  | nil => intro e i; exact ⟨rfl, rfl⟩
  | cons v rest ih =>
    intro e i
    simp only [mapToHeadersLoop]
    exact ih _ _

theorem mapToHeadersLoop_get_undefined (pending : List JSValue) :
    ∀ (e : MapEnv) (i : Nat) (d : JSValue), pending ≠ [] →
      e.headers.length < i + pending.length →
      objGet (mapToHeadersLoop e i pending).obj "undefined" =
        pending.getLastD d := by
  induction pending with
  | nil => intro e i d hne _; exact absurd rfl hne
  | cons v rest ih =>
    intro e i d hne hlen
    rw [mapToHeadersLoop]
    cases rest with
    | nil =>
      have hge : e.headers.length ≤ i := by
        simp only [List.length_cons, List.length_nil] at hlen
        omega
      have hu : rowGet e.headers i = JSValue.undefined := by
        unfold rowGet
        exact List.getD_eq_default _ _ hge
      rw [mapToHeadersLoop]
      simp only [hu, jsPropKey]
      simp [objGet_set_self]
    | cons v2 rest2 =>
      rw [ih _ (i + 1) v (by simp) (by
        simp only [List.length_cons] at hlen ⊢
        omega)]
      simp only [List.getLastD_cons]

theorem mapToHeadersLoop_hasKey (pending : List JSValue) :
    ∀ (e : MapEnv) (i : Nat) (k : String),
      objHasKey (mapToHeadersLoop e i pending).obj k = true →
      objHasKey e.obj k = true ∨
        ∃ j, j < pending.length ∧ k = jsPropKey (rowGet e.headers (i + j)) := by
  induction pending with
  | nil => intro e i k h; exact Or.inl h
  | cons v rest ih =>
    intro e i k h
    simp only [mapToHeadersLoop] at h
    rcases ih _ (i + 1) k h with ho | ⟨j, hj, hk⟩
    · by_cases hkk : k = jsPropKey (rowGet e.headers i)
      · exact Or.inr ⟨0, by simp, by simpa using hkk⟩
      · left
        rwa [objHasKey_set_other _ hkk] at ho
    · refine Or.inr ⟨j + 1, by simpa using Nat.succ_lt_succ hj, ?_⟩
      rw [hk]
      have harith : i + 1 + j = i + (j + 1) := by omega
      rw [harith]

/-! Unfolding lemmas for correctOldTonval. -/

theorem correctOldTonval_of_defined (o : Obj)
    (h : objGet o "tonVal40" ≠ JSValue.undefined) : correctOldTonval o = o := by
  unfold correctOldTonval
  rw [if_pos h]

theorem correctOldTonval_of_undefined (o : Obj)
    (h : objGet o "tonVal40" = JSValue.undefined) :
    correctOldTonval o =
      objDel (objDel (objSet (objAssign [] o) "tonVal40" (objGet o "tonVal50"))
        "tonVal50") "tonVal20" := by
  unfold correctOldTonval
  rw [if_neg (not_ne_iff.mpr h)]

theorem sheetFix_get_other (o : Obj) (k : String) (hk : k ≠ "sheet") :
    objGet (sheetFix o) k = objGet o k := by
  unfold sheetFix
  split
  next s hs => exact objGet_set_other o hk _
  next => rfl

/-! The claims. -/

/-- Claim C2: for every dictionary section D and input I, a record returned
by normalizeMeta or normalizeDataRow has exactly the key set of D: a key is
present in the output precisely when it is a logical key of D, regardless
of extra keys in I. -/
theorem claim2_normalize_key_sets (I : Obj) (D : MetaDict) :
    (∀ r, normalizeMeta I D = some r →
      ∀ k, objHasKey r k = true ↔ k ∈ dictKeys D) ∧
    (∀ r, normalizeDataRow I D = some r →
      ∀ k, objHasKey r k = true ↔ k ∈ dictKeys D) :=
  ⟨fun r h k => normalizeMeta_hasKey I D r h k,
   fun r h k => normalizeDataRow_hasKey I D r h k⟩

/-- Concrete instance of claim C2: the dictionary key appears, the extra
input key does not. -/
theorem claim2_witness :
    (normalizeMeta [("A", JSValue.str "v"), ("zzz", JSValue.null)] [("a", "A")] =
      some [("a", JSValue.str "v")]) ∧
    (objHasKey [("a", JSValue.str "v")] "a" = true ↔ "a" ∈ dictKeys [("a", "A")]) ∧
    (objHasKey [("a", JSValue.str "v")] "zzz" = true ↔ "zzz" ∈ dictKeys [("a", "A")]) :=
  ⟨by decide,
   (claim2_normalize_key_sets [("A", JSValue.str "v"), ("zzz", JSValue.null)]
     [("a", "A")]).1 [("a", JSValue.str "v")] (by decide) "a",
   (claim2_normalize_key_sets [("A", JSValue.str "v"), ("zzz", JSValue.null)]
     [("a", "A")]).1 [("a", JSValue.str "v")] (by decide) "zzz"⟩

/-- Claim C5: every record emitted by normalizeSecondaryColorRow has truthy
act_L, act_a and act_b values (never zero, empty, null or undefined). -/
theorem claim5_secondary_truthy (row : Obj) (dict : SecDict) (r : Obj)
    (h : r ∈ normalizeSecondaryColorRow row dict) :
    truthy (objGet r "act_L") = true ∧ truthy (objGet r "act_a") = true ∧
      truthy (objGet r "act_b") = true := by
  unfold normalizeSecondaryColorRow at h
  have hp := List.of_mem_filter h
  simp only [Bool.and_eq_true] at hp
  exact ⟨hp.1.1, hp.1.2, hp.2⟩

/-- Concrete instance of claim C5: an emitted CM record has truthy act
values. -/
theorem claim5_witness :
    ([("colorName", JSValue.str "CM"), ("color", JSValue.str "cm"),
      ("act_L", JSValue.num 1), ("act_a", JSValue.num 2), ("act_b", JSValue.num 3)] ∈
      normalizeSecondaryColorRow
        [("cL", JSValue.str "1"), ("ca", JSValue.str "2"), ("cb", JSValue.str "3")]
        [("CM", ⟨"cL", "ca", "cb"⟩)]) ∧
    (truthy (objGet [("colorName", JSValue.str "CM"), ("color", JSValue.str "cm"),
      ("act_L", JSValue.num 1), ("act_a", JSValue.num 2), ("act_b", JSValue.num 3)]
        "act_L") = true ∧
     truthy (objGet [("colorName", JSValue.str "CM"), ("color", JSValue.str "cm"),
      ("act_L", JSValue.num 1), ("act_a", JSValue.num 2), ("act_b", JSValue.num 3)]
        "act_a") = true ∧
     truthy (objGet [("colorName", JSValue.str "CM"), ("color", JSValue.str "cm"),
      ("act_L", JSValue.num 1), ("act_a", JSValue.num 2), ("act_b", JSValue.num 3)]
        "act_b") = true) :=
  ⟨by decide,
   claim5_secondary_truthy
     [("cL", JSValue.str "1"), ("ca", JSValue.str "2"), ("cb", JSValue.str "3")]
     [("CM", ⟨"cL", "ca", "cb"⟩)]
     [("colorName", JSValue.str "CM"), ("color", JSValue.str "cm"),
      ("act_L", JSValue.num 1), ("act_a", JSValue.num 2), ("act_b", JSValue.num 3)]
     (by decide)⟩

/-- Claim C9: mapToHeaders mutates neither its row nor its headers input.
The reduce loop is embedded with its whole local environment (object under
construction, row, headers); the only assignment in the body targets the
fresh object, and the loop leaves the row and headers components of the
environment untouched. -/
theorem claim9_mapToHeaders_no_mutation (row headers : List JSValue) :
    mapToHeaders row headers = (mapToHeadersLoop ⟨[], row, headers⟩ 0 row).obj ∧
    (mapToHeadersLoop ⟨[], row, headers⟩ 0 row).row = row ∧
    (mapToHeadersLoop ⟨[], row, headers⟩ 0 row).headers = headers :=
  ⟨rfl, mapToHeadersLoop_frame row ⟨[], row, headers⟩ 0⟩

/-- Claim C10: normalizeDataRow yields a record only when the value under
the color source column is number-like or a string; a null or undefined
color cell makes it throw (none), and inside the stream driver such a data
row aborts the whole parse run. -/
theorem claim10_color_guard :
    (∀ (row : Obj) (dd : MetaDict) (r : Obj), "color" ∈ dictKeys dd →
      normalizeDataRow row dd = some r →
      isNumber (objGet row (dictLookup dd "color")) = true ∨
        ∃ s, objGet row (dictLookup dd "color") = JSValue.str s) ∧
    (∀ (row : Obj) (dd : MetaDict), "color" ∈ dictKeys dd →
      (objGet row (dictLookup dd "color") = JSValue.null ∨
       objGet row (dictLookup dd "color") = JSValue.undefined) →
      normalizeDataRow row dd = none) ∧
    (∀ (dict : Dictionary) (st : ParseState) (row : Row) (rest : List Row),
      st.isData = true → skip row = false → "color" ∈ dictKeys dict.data →
      (objGet (mapToHeaders row st.headers) (dictLookup dict.data "color") = JSValue.null ∨
       objGet (mapToHeaders row st.headers) (dictLookup dict.data "color") = JSValue.undefined) →
      runRows dict st (row :: rest) = none) := by
  have hbad : ∀ (row : Obj) (dd : MetaDict), "color" ∈ dictKeys dd →
      (objGet row (dictLookup dd "color") = JSValue.null ∨
       objGet row (dictLookup dd "color") = JSValue.undefined) →
      normalizeDataRow row dd = none := by
    intro row dd hmem hb
    unfold normalizeDataRow
    refine normRowGo_color_of_bad row dd ?_ ?_ (dictKeys dd) [] hmem
    · rcases hb with hb | hb <;> rw [hb] <;> rfl
    · rcases hb with hb | hb <;> rw [hb] <;> rfl
  refine ⟨?_, hbad, ?_⟩
  · intro row dd r hmem h
    exact normRowGo_color_success row dd (dictKeys dd) [] r hmem h
  · intro dict st row rest hdata hskip hmem hb
    have hnone := hbad (mapToHeaders row st.headers) dict.data hmem hb
    simp only [runRows, onData, hskip, hdata, hnone]
    simp

/-- Concrete instance of claim C10: a null color cell makes
normalizeDataRow throw. -/
theorem claim10_witness :
    normalizeDataRow [("Color", JSValue.null)] [("color", "Color")] = none :=
  claim10_color_guard.2.1 [("Color", JSValue.null)] [("color", "Color")]
    (by decide) (Or.inl (by decide))

/-- Claim C3: a row whose tonVal40 access yields a defined value passes
through correctOldTonval unchanged; otherwise the result holds the former
tonVal50 value under tonVal40, carries no tonVal50 or tonVal20 key, and
agrees with the input on every other field. The row is a JS object, so its
key list has no duplicates. -/
theorem claim3_correctOldTonval (r : Obj) (hn : (r.map Prod.fst).Nodup) :
    (objGet r "tonVal40" ≠ JSValue.undefined → correctOldTonval r = r) ∧
    (objGet r "tonVal40" = JSValue.undefined →
      objGet (correctOldTonval r) "tonVal40" = objGet r "tonVal50" ∧
      objHasKey (correctOldTonval r) "tonVal50" = false ∧
      objHasKey (correctOldTonval r) "tonVal20" = false ∧
      (∀ k, k ≠ "tonVal40" → k ≠ "tonVal50" → k ≠ "tonVal20" →
        objGet (correctOldTonval r) k = objGet r k)) := by
  constructor
  · exact correctOldTonval_of_defined r
  · intro heq
    have hr : correctOldTonval r =
        objDel (objDel (objSet r "tonVal40" (objGet r "tonVal50")) "tonVal50")
          "tonVal20" := by
      rw [correctOldTonval_of_undefined r heq, objAssign_nil_of_nodup r hn]
    refine ⟨?_, ?_, ?_, ?_⟩
    · rw [hr, objGet_del_other _ (by decide), objGet_del_other _ (by decide),
        objGet_set_self]
    · rw [hr, objHasKey_del_other _ (by decide), objHasKey_del_self]
    · rw [hr, objHasKey_del_self]
    · intro k h40 h50 h20
      rw [hr, objGet_del_other _ h20, objGet_del_other _ h50, objGet_set_other _ h40]

/-- Concrete instance of claim C3: an old-schema row gets its tonVal50
value moved to tonVal40 and loses the tonVal50 key. -/
theorem claim3_witness :
    ((([("tonVal50", JSValue.num 5), ("x", JSValue.str "y")] : Obj).map Prod.fst).Nodup ∧
      objGet [("tonVal50", JSValue.num 5), ("x", JSValue.str "y")] "tonVal40" =
        JSValue.undefined) ∧
    objGet (correctOldTonval [("tonVal50", JSValue.num 5), ("x", JSValue.str "y")])
      "tonVal40" = JSValue.num 5 ∧
    objHasKey (correctOldTonval [("tonVal50", JSValue.num 5), ("x", JSValue.str "y")])
      "tonVal50" = false :=
  ⟨⟨by decide, by decide⟩,
   ((claim3_correctOldTonval [("tonVal50", JSValue.num 5), ("x", JSValue.str "y")]
      (by decide)).2 (by decide)).1,
   ((claim3_correctOldTonval [("tonVal50", JSValue.num 5), ("x", JSValue.str "y")]
      (by decide)).2 (by decide)).2.1⟩

/-- Claim C8: correctOldTonval is idempotent on every row. -/
theorem claim8_correctOldTonval_idempotent (r : Obj) :
    correctOldTonval (correctOldTonval r) = correctOldTonval r := by
  by_cases h40 : objGet r "tonVal40" = JSValue.undefined
  · have hstep := correctOldTonval_of_undefined r h40
    have hget40 : objGet (correctOldTonval r) "tonVal40" = objGet r "tonVal50" := by
      rw [hstep, objGet_del_other _ (by decide), objGet_del_other _ (by decide),
        objGet_set_self]
    by_cases h50 : objGet r "tonVal50" = JSValue.undefined
    · have hnodup : ((correctOldTonval r).map Prod.fst).Nodup := by
        rw [hstep]
        exact nodup_keys_del _ _ (nodup_keys_del _ _
          (nodup_keys_set _ _ _ (nodup_keys_assign [] r (by simp))))
      have hkey40 : objHasKey (correctOldTonval r) "tonVal40" = true := by
        rw [hstep, objHasKey_del_other _ (by decide), objHasKey_del_other _ (by decide),
          objHasKey_set_self]
      have hkey50 : objHasKey (correctOldTonval r) "tonVal50" = false := by
        rw [hstep, objHasKey_del_other _ (by decide), objHasKey_del_self]
      have hkey20 : objHasKey (correctOldTonval r) "tonVal20" = false := by
        rw [hstep, objHasKey_del_self]
      rw [correctOldTonval_of_undefined (correctOldTonval r) (by rw [hget40]; exact h50)]
      rw [objAssign_nil_of_nodup _ hnodup]
      rw [objGet_of_not_hasKey _ _ hkey50]
      rw [objSet_of_get _ _ _ hkey40 (by rw [hget40]; exact h50)]
      rw [objDel_of_not_hasKey _ _ hkey50, objDel_of_not_hasKey _ _ hkey20]
    · exact correctOldTonval_of_defined (correctOldTonval r) (by rw [hget40]; exact h50)
  · rw [correctOldTonval_of_defined r (by exact h40)]
    exact correctOldTonval_of_defined r (by exact h40)

/-- Claim C4 as stated is false: a row longer than the headers does not
drop its extra values. The extra value b is written to the output under
the property key given by the undefined header, the literal string
undefined, so it does appear in the output. -/
theorem claim4_cex :
    mapToHeaders [JSValue.str "a", JSValue.str "b"] [JSValue.str "h"] =
      [("h", JSValue.str "a"), ("undefined", JSValue.str "b")] ∧
    objGet (mapToHeaders [JSValue.str "a", JSValue.str "b"] [JSValue.str "h"])
      "undefined" = JSValue.str "b" :=
  ⟨by decide, by decide⟩

/-- Claim C4, amended: when the row is longer than the headers the extra
values are all written under the single key given by coercing the missing
header, the string undefined, so the last extra value survives there; and
every key of the output comes from a header position below the row length,
so a trailing header whose coerced name differs from every consumed
position receives no entry. When the row is shorter, only positions below
the row length produce entries. -/
theorem claim4_amended (r h : List JSValue) :
    (h.length < r.length →
      objGet (mapToHeaders r h) "undefined" = r.getLastD JSValue.undefined) ∧
    (∀ k, objHasKey (mapToHeaders r h) k = true →
      ∃ j, j < r.length ∧ k = jsPropKey (rowGet h j)) := by
  constructor
  · intro hlen
    have hne : r ≠ [] := by
      intro he
      subst he
      simp at hlen
    exact mapToHeadersLoop_get_undefined r ⟨[], r, h⟩ 0 JSValue.undefined hne
      (by simpa using hlen)
  · intro k hk
    rcases mapToHeadersLoop_hasKey r ⟨[], r, h⟩ 0 k hk with ho | ⟨j, hj, he⟩
    · simp [objHasKey] at ho
    · exact ⟨j, hj, by simpa using he⟩

/-- Concrete instance of the amended claim C4: with two row values and one
header the second value lands under the key undefined. -/
theorem claim4_witness :
    ([JSValue.str "h"] : List JSValue).length <
      ([JSValue.str "a", JSValue.str "b"] : List JSValue).length ∧
    objGet (mapToHeaders [JSValue.str "a", JSValue.str "b"] [JSValue.str "h"])
      "undefined" =
      ([JSValue.str "a", JSValue.str "b"] : List JSValue).getLastD JSValue.undefined :=
  ⟨by decide,
   (claim4_amended [JSValue.str "a", JSValue.str "b"] [JSValue.str "h"]).1 (by decide)⟩

/-- Claim C7: getMachineName returns the empty string for a missing or
empty or matchless filename, and otherwise the leftmost, verbatim match of
the case-insensitive pattern R followed by exactly three digits; the three
documented examples hold. -/
theorem claim7_getMachineName :
    getMachineName none = "" ∧
    (∀ s : String, (∀ i, matchesAt (s.data.drop i) = false) →
      getMachineName (some s) = "") ∧
    (∀ (s : String) (i : Nat), matchesAt (s.data.drop i) = true →
      (∀ j, j < i → matchesAt (s.data.drop j) = false) →
      getMachineName (some s) = String.mk ((s.data.drop i).take 4)) ∧
    getMachineName (some "fooR508bar.csv") = "R508" ∧
    getMachineName (some "r20-R508-r301-bar.csv") = "R508" ∧
    getMachineName (some "foo-bar.csv") = "" := by
  refine ⟨rfl, ?_, ?_, by decide, by decide, by decide⟩
  · intro s hno
    simp only [getMachineName]
    by_cases hs : s.isEmpty = true
    · rw [if_pos hs]
    · rw [if_neg hs, machineScan_none_of_nomatch s.data hno]
  · intro s i hi hj
    have hsne : ¬ s.isEmpty = true := by
      intro hse
      have hdata : s.data = [] := by
        rw [(String.isEmpty_iff s).mp hse]
      rw [hdata] at hi
      simp [List.drop_nil, matchesAt] at hi
    simp only [getMachineName]
    rw [if_neg hsne, machineScan_eq_of_first s.data i hi hj]

/-- Concrete instance of claim C7: the first-match characterization applied
to the multi-candidate filename. -/
theorem claim7_witness :
    matchesAt (("r20-R508-r301-bar.csv").data.drop 4) = true ∧
    getMachineName (some "r20-R508-r301-bar.csv") =
      String.mk ((("r20-R508-r301-bar.csv").data.drop 4).take 4) :=
  ⟨by decide,
   claim7_getMachineName.2.2.1 "r20-R508-r301-bar.csv" 4 (by decide) (by decide)⟩

/-- Claim C6: when the projected paperType value is a string, normalizeMeta
reduces it to the first digit of the string optionally followed by a
directly following F or f; when the string has no digit at all (the
pattern cannot match), the extraction fails and normalizeMeta returns no
record at all. -/
theorem claim6_paperType (I : Obj) (D : MetaDict) (s : String)
    (hstr : objGet (projectKeys I D) "paperType" = JSValue.str s) :
    ((∀ c ∈ s.data, c.isDigit = false) → normalizeMeta I D = none) ∧
    (∀ r, normalizeMeta I D = some r →
      ∃ m, digitFScan s.data = some m ∧
        objGet r "paperType" = JSValue.str (String.mk m) ∧
        ∃ i d tail, s.data.drop i = d :: tail ∧ d.isDigit = true ∧
          (∀ c ∈ s.data.take i, c.isDigit = false) ∧
          (m = [d] ∨ ∃ f t2, tail = f :: t2 ∧ (f = 'F' ∨ f = 'f') ∧ m = [d, f])) := by
  constructor
  · intro hno
    simp only [normalizeMeta, hstr, digitFScan_none_of_nodigit s.data hno]
  · intro r h
    simp only [normalizeMeta, hstr] at h
    cases hm : digitFScan s.data with
    | none =>
      rw [hm] at h
      cases h
    | some m =>
      rw [hm] at h
      cases h
      obtain ⟨i, d, tail, hdrop, hdig, htake, hshape⟩ := digitFScan_some_shape s.data m hm
      refine ⟨m, rfl, ?_, i, d, tail, hdrop, hdig, htake, hshape⟩
      rw [sheetFix_get_other _ _ (by decide), objGet_set_self]

/-- Concrete instance of claim C6: the value x4Fy is reduced to 4F. -/
theorem claim6_witness :
    ∃ m, digitFScan ("x4Fy").data = some m ∧
      objGet [("paperType", JSValue.str "4F")] "paperType" =
        JSValue.str (String.mk m) ∧
      ∃ i d tail, ("x4Fy").data.drop i = d :: tail ∧ d.isDigit = true ∧
        (∀ c ∈ ("x4Fy").data.take i, c.isDigit = false) ∧
        (m = [d] ∨ ∃ f t2, tail = f :: t2 ∧ (f = 'F' ∨ f = 'f') ∧ m = [d, f]) :=
  (claim6_paperType [("Papierart", JSValue.str "x4Fy")] [("paperType", "Papierart")]
    "x4Fy" (by decide)).2 [("paperType", JSValue.str "4F")] (by decide)

/-- Claim C1 as stated is false: the parse does not always complete with
either an error or a result. A stream whose header row is followed by a
data row leaving the color source column undefined makes normalizeDataRow
throw inside the data handler, so the completion callback is never invoked
with an error nor with a result (modelled as the outer none). -/
theorem claim1_cex :
    parser ⟨[], [("color", "Color")], []⟩ none
      [[JSValue.str "Protocolled Measuring No"],
       [JSValue.str "x", JSValue.str "y"]] = none := by
  rfl

/-- Claim C1, amended: for every run of the driver that processes all rows
without throwing, the parse completes exactly once with either an error or
a result: with the named InvalidInput error when the accumulated values
are empty, and otherwise (when the metadata normalization also does not
throw, and the meta section of the dictionary does not itself declare the
injected maker and machine names) with a result whose meta holds the
constant maker manroland, the machine string derived from the filename,
and a key for every logical field of the meta dictionary section, and
whose values are non-empty. -/
theorem claim1_amended (dict : Dictionary) (fname : Option String) (rows : List Row)
    (st : ParseState) (h : runRows dict initialState rows = some st)
    (hm1 : "maker" ∉ dictKeys dict.meta) (hm2 : "machine" ∉ dictKeys dict.meta) :
    (st.values = [] → parser dict fname rows = some (Except.error "InvalidInput")) ∧
    (∀ nm, st.values ≠ [] → normalizeMeta st.meta dict.meta = some nm →
      ∃ res, parser dict fname rows = some (Except.ok res) ∧
        objGet res.meta "maker" = JSValue.str "manroland" ∧
        objGet res.meta "machine" = JSValue.str (getMachineName fname) ∧
        (∀ k, k ∈ dictKeys dict.meta → objHasKey res.meta k = true) ∧
        res.values ≠ []) := by
  constructor
  · intro hempty
    simp only [parser, h]
    rw [if_pos hempty]
  · intro nm hne hnm
    have hkeys : ∀ k, objHasKey nm k = true ↔ k ∈ dictKeys dict.meta :=
      fun k => normalizeMeta_hasKey st.meta dict.meta nm hnm k
    have hnmaker : "maker" ∉ nm.map Prod.fst := fun hmem =>
      hm1 ((hkeys "maker").mp ((objHasKey_iff_mem nm "maker").mpr hmem))
    have hnmachine : "machine" ∉ nm.map Prod.fst := fun hmem =>
      hm2 ((hkeys "machine").mp ((objHasKey_iff_mem nm "machine").mpr hmem))
    refine ⟨⟨objAssign [("maker", JSValue.str "manroland"),
      ("machine", JSValue.str (getMachineName fname))] nm, st.values⟩,
      ?_, ?_, ?_, ?_, hne⟩
    · simp only [parser, h, hnm]
      rw [if_neg hne]
    · dsimp only
      rw [objGet_assign_of_not_mem _ nm "maker" hnmaker]
      simp [objGet]
    · dsimp only
      rw [objGet_assign_of_not_mem _ nm "machine" hnmachine]
      simp [objGet]
    · intro k hk
      dsimp only
      exact (objHasKey_assign _ nm k).mpr
        (Or.inr ((objHasKey_iff_mem nm k).mp ((hkeys k).mpr hk)))

/-- Concrete instance of the amended claim C1: an empty stream accumulates
no values and the parse completes with the InvalidInput error. -/
theorem claim1_witness :
    runRows ⟨[], [], []⟩ initialState [] = some initialState ∧
    parser ⟨[], [], []⟩ none [] = some (Except.error "InvalidInput") :=
  ⟨rfl,
   (claim1_amended ⟨[], [], []⟩ none [] initialState rfl (by simp [dictKeys])
     (by simp [dictKeys])).1 rfl⟩
